import Mathlib

/-!
Verification development for the edit-application engine of Vibe-Blender
(`src/vibe_blender/agents/editor.py`).

The engine is pure, synchronous string processing, so it is shallowly
embedded here: Python strings become `List Char`, the orchestrator's
`for` loop becomes structural recursion over the edit list, and the
`ValueError` ambiguity exceptions raised by the matchers become the
`Except.error` branch of an `Except` result.  Every definition follows
the corresponding Python function line by line; names are kept.
-/

set_option maxHeartbeats 1000000

namespace Editor

/-- A Python string is modelled as a list of characters. -/
abbrev Str := List Char

/-- Characters stripped by Python `str.strip()` / `rstrip()` / `lstrip()`
(for the ASCII range relevant to script text). -/
def pyIsSpace (c : Char) : Bool :=
  c = ' ' || c = '\t' || c = '\n' || c = '\r' || c = '\x0b' || c = '\x0c'

/-- Python `s.lstrip()`. -/
def lstrip (s : Str) : Str := s.dropWhile pyIsSpace

/-- Python `s.rstrip()`. -/
def rstrip (s : Str) : Str := (s.reverse.dropWhile pyIsSpace).reverse

/-- Python `s.strip()`. -/
def pyStrip (s : Str) : Str := rstrip (lstrip s)

/-- Python `s.split("\n")`: always non-empty, no separator kept. -/
def splitNl : Str → List Str
  | [] => [[]]
  | c :: rest =>
    let r := splitNl rest
    if c = '\n' then [] :: r
    else match r with
      | [] => [[c]]
      | l :: ls => (c :: l) :: ls

/-- Python `"\n".join(ls)`. -/
def joinNl : List Str → Str
  | [] => []
  | [l] => l
  | l :: ls => l ++ '\n' :: joinNl ls

/-- Python slice `s[a:b]` (for `0 ≤ a ≤ b`; out-of-range indices clamp). -/
def pySlice (s : Str) (a b : Nat) : Str := (s.drop a).take (b - a)

/-- Does `pat` occur in `s` starting at position `j`, i.e. `s[j:j+len(pat)] == pat`? -/
def occursAt (s pat : Str) (j : Nat) : Bool :=
  decide ((s.drop j).take pat.length = pat)

/-- Fuel-driven scan for the first occurrence of `pat` at a position `≥ j`. -/
def findFromAux (s pat : Str) : Nat → Nat → Option Nat
  | _, 0 => none
  | j, fuel + 1 => if occursAt s pat j then some j else findFromAux s pat (j + 1) fuel

/-- Python `s.find(pat, b)`, returning `none` instead of `-1`.
Scans positions `b, b+1, …, len s`. -/
def pyFindFrom (s pat : Str) (b : Nat) : Option Nat :=
  if b ≤ s.length then findFromAux s pat b (s.length + 1 - b) else none

/-- Python `s.find(pat)`, returning `none` instead of `-1`. -/
def pyFind (s pat : Str) : Option Nat := pyFindFrom s pat 0

/-- Number of positions of `s` at which `pat` occurs (used to state the
uniqueness/ambiguity claims). -/
def countOcc (s pat : Str) : Nat :=
  ((List.range (s.length + 1)).filter (fun j => occursAt s pat j)).length

/-- Decimal rendering of a number, for the orchestrator's error strings. -/
def natStr (n : Nat) : Str := Nat.toDigits 10 n

/-- An edit record: the Python dict `{"old_code": …, "new_code": …}` as
received from the upstream parser. -/
structure Edit where
  old_code : Str
  new_code : Str
deriving DecidableEq, Repr

/-- `EditResult` from `editor.py`: result of applying a batch of edits. -/
structure EditResult where
  success : Bool
  code : Str
  applied_count : Nat
  error : Option Str := none
deriving DecidableEq, Repr

/-- Message of the `ValueError` raised by `_exact_match`. -/
def msgExactAmbig : Str :=
  "old_code appears multiple times in script — edit is ambiguous".toList

/-- Message of the `ValueError` raised by `_line_trimmed_match`. -/
def msgTrimAmbig : Str :=
  "old_code (line-trimmed) appears multiple times — edit is ambiguous".toList

/-- Message of the per-depth `ValueError` raised by `_indentation_flexible_match`. -/
def msgReindentAmbig : Str :=
  "old_code (re-indented) appears multiple times — edit is ambiguous".toList

/-- Message of the multi-depth `ValueError` raised by `_indentation_flexible_match`. -/
def msgMultiIndentAmbig : Str :=
  "old_code matches at multiple indent levels — edit is ambiguous".toList

/-- Message of the `ValueError` raised by `_blank_line_flexible_match`. -/
def msgBlankAmbig : Str :=
  "old_code (blank-lines-stripped) appears multiple times — edit is ambiguous".toList

/-- Orchestrator error string `f"Edit {i+1}: old_code is empty"`. -/
def msgEmptyOld (k : Nat) : Str :=
  "Edit ".toList ++ natStr k ++ ": old_code is empty".toList

/-- Orchestrator error string `f"Edit {i+1}: old_code not found in script"`. -/
def msgNotFound (k : Nat) : Str :=
  "Edit ".toList ++ natStr k ++ ": old_code not found in script".toList

/-- Matcher 1, `_exact_match`: exact substring search; `ValueError` on a
second occurrence. -/
def exact_match (code old_code : Str) : Except Str (Option (Nat × Nat)) :=
  match pyFind code old_code with
  | none => .ok none
  | some first =>
    match pyFindFrom code old_code (first + 1) with
    | some _ => .error msgExactAmbig
    | none => .ok (some (first, first + old_code.length))

/-- `_build_trimmed_map`: per-line start offsets in the original code. -/
def buildStarts (offset : Nat) : List Str → List Nat
  | [] => []
  | l :: ls => offset :: buildStarts (offset + l.length + 1) ls

/-- `_build_trimmed_map`: the line-trimmed text and the offset table. -/
def build_trimmed_map (code : Str) : Str × List Nat :=
  (joinNl ((splitNl code).map rstrip), buildStarts 0 (splitNl code))

/-- Loop body of `_map_trimmed_pos_to_orig`: walk `trimmed_lines` paired
positionally with `orig_line_starts` (`orig_starts[line_idx]` in the
source; the two lists always have equal length). -/
def mapGo (origLen : Nat) : List Str → List Nat → Nat → Nat → Nat
  | [], _, _, _ => origLen
  | _, [], _, _ => origLen
  | line :: rest, st :: sts, offset, tpos =>
    if tpos ≤ offset + line.length then st + (tpos - offset)
    else mapGo origLen rest sts (offset + line.length + 1) tpos

/-- `_map_trimmed_pos_to_orig`: convert a position in the trimmed code to a
position in the original code. -/
def map_trimmed_pos_to_orig (origCode trimmedCode : Str) (origStarts : List Nat)
    (tpos : Nat) : Nat :=
  mapGo origCode.length (splitNl trimmedCode) origStarts 0 tpos

/-- Matcher 2, `_line_trimmed_match`: match after stripping trailing
whitespace from every line, then remap to original offsets. -/
def line_trimmed_match (code old_code : Str) : Except Str (Option (Nat × Nat)) :=
  let tm := build_trimmed_map code
  let trimmedCode := tm.1
  let origStarts := tm.2
  let trimmedOld := joinNl ((splitNl old_code).map rstrip)
  match pyFind trimmedCode trimmedOld with
  | none => .ok none
  | some pos =>
    if (pyFindFrom trimmedCode trimmedOld (pos + 1)).isSome then
      .error msgTrimAmbig
    else
      let startOrig := map_trimmed_pos_to_orig code trimmedCode origStarts pos
      let endOrig := map_trimmed_pos_to_orig code trimmedCode origStarts
        (pos + trimmedOld.length)
      .ok (some (startOrig, endOrig))

/-- `_detect_indent`: leading-whitespace count of the first non-blank line. -/
def detect_indent (text : Str) : Option Nat :=
  (splitNl text).findSome? fun line =>
    if (lstrip line) ≠ [] then some (line.length - (lstrip line).length) else none

/-- `_reindent`: shift every line's indentation by `to_indent - from_indent`
(clamped at zero); blank lines become empty. -/
def reindent (text : Str) (fromIndent toIndent : Nat) : Str :=
  let delta : Int := (toIndent : Int) - (fromIndent : Int)
  joinNl ((splitNl text).map fun line =>
    if pyStrip line = [] then []
    else
      let current : Nat := line.length - (lstrip line).length
      let newIndent : Nat := (max 0 ((current : Int) + delta)).toNat
      List.replicate newIndent ' ' ++ lstrip line)

/-- The distinct indentation depths of the non-blank lines of `code`
(the Python `set` `code_indents`; iteration order of a set of small
ints is immaterial here, the matcher's outcome is order-independent).
Modelled as the duplicate-free list keeping last occurrences. -/
def dedupNat : List Nat → List Nat
  | [] => []
  | x :: xs => if x ∈ xs then dedupNat xs else x :: dedupNat xs

/-- The indentation depths (with duplicates) of the non-blank lines of `code`. -/
def rawIndents (code : Str) : List Nat :=
  ((splitNl code).filter (fun line => lstrip line ≠ [])).map
    (fun line => line.length - (lstrip line).length)

/-- `code_indents` of `_indentation_flexible_match`. -/
def codeIndents (code : Str) : List Nat := dedupNat (rawIndents code)

/-- Loop of `_indentation_flexible_match`: try each candidate depth,
accumulating `(start, end, target_indent)` hits; `ValueError` if one
depth's re-indented variant occurs twice. -/
def indentLoop (code old_code : Str) (oldIndent : Nat) :
    List Nat → List (Nat × Nat × Nat) → Except Str (List (Nat × Nat × Nat))
  | [], acc => .ok acc
  | t :: ts, acc =>
    if t = oldIndent then indentLoop code old_code oldIndent ts acc
    else
      let r := reindent old_code oldIndent t
      match pyFind code r with
      | none => indentLoop code old_code oldIndent ts acc
      | some pos =>
        if (pyFindFrom code r (pos + 1)).isSome then .error msgReindentAmbig
        else indentLoop code old_code oldIndent ts (acc ++ [(pos, pos + r.length, t)])

/-- Matcher 3, `_indentation_flexible_match`. -/
def indentation_flexible_match (code old_code : Str) :
    Except Str (Option (Nat × Nat)) :=
  match detect_indent old_code with
  | none => .ok none
  | some oldIndent =>
    match indentLoop code old_code oldIndent (codeIndents code) [] with
    | .error e => .error e
    | .ok matches_ =>
      match matches_ with
      | [m] => .ok (some (m.1, m.2.1))
      | [] => .ok none
      | _ => .error msgMultiIndentAmbig

/-- `_strip_blank_lines`: remove all blank lines from `text`. -/
def strip_blank_lines (text : Str) : Str :=
  joinNl ((splitNl text).filter (fun line => pyStrip line ≠ []))

/-- `kept_line_info` of `_strip_blank_lines_with_spans`:
`(orig_char_start, line_length)` for every non-blank line. -/
def keptInfo (origOffset : Nat) : List Str → List (Nat × Nat)
  | [] => []
  | line :: ls =>
    if pyStrip line ≠ [] then
      (origOffset, line.length) :: keptInfo (origOffset + line.length + 1) ls
    else
      keptInfo (origOffset + line.length + 1) ls

/-- Per-character span table of `_strip_blank_lines_with_spans`: each kept
character maps to itself, with a `\n` separator entry between kept lines. -/
def spansOf : List (Nat × Nat) → List (Nat × Nat)
  | [] => []
  | [(s, l)] => (List.range l).map (fun c => (s + c, s + c + 1))
  | (s, l) :: rest =>
    ((List.range l).map (fun c => (s + c, s + c + 1)))
      ++ [(s + l, s + l + 1)] ++ spansOf rest

/-- `_strip_blank_lines_with_spans`: the collapsed text together with the
per-character span table. -/
def strip_blank_lines_with_spans (text : Str) : Str × List (Nat × Nat) :=
  let kept := keptInfo 0 (splitNl text)
  let strippedText := joinNl (kept.map (fun sl => pySlice text sl.1 (sl.1 + sl.2)))
  (strippedText, spansOf kept)

/-- `_collapsed_pos_to_orig`: map a collapsed-text position to an original
position via the span table. -/
def collapsed_pos_to_orig (spans : List (Nat × Nat)) (pos : Nat) : Nat :=
  if pos = 0 then 0
  else if spans.length ≤ pos then (spans.getLastD (0, 0)).2
  else (spans.getD pos (0, 0)).1

/-- Matcher 4, `_blank_line_flexible_match`: match after stripping all blank
lines from both strings, then remap through the span table. -/
def blank_line_flexible_match (code old_code : Str) :
    Except Str (Option (Nat × Nat)) :=
  let sw := strip_blank_lines_with_spans code
  let strippedCode := sw.1
  let spans := sw.2
  let strippedOld := strip_blank_lines old_code
  match pyFind strippedCode strippedOld with
  | none => .ok none
  | some pos =>
    if (pyFindFrom strippedCode strippedOld (pos + 1)).isSome then
      .error msgBlankAmbig
    else
      .ok (some (collapsed_pos_to_orig spans pos,
                 collapsed_pos_to_orig spans (pos + strippedOld.length)))

/-- The fixed matcher chain of `locate_edit`, tried strictest-first; the
first matcher to return a span or to raise wins. -/
def runCascade : List (Str → Str → Except Str (Option (Nat × Nat))) →
    Str → Str → Except Str (Option (Nat × Nat))
  | [], _, _ => .ok none
  | m :: ms, code, old_code =>
    match m code old_code with
    | .error e => .error e
    | .ok (some r) => .ok (some r)
    | .ok none => runCascade ms code old_code

/-- `locate_edit`: locate `old_code` inside `code` using the chain of four
fuzzy matchers. -/
def locate_edit (code old_code : Str) : Except Str (Option (Nat × Nat)) :=
  runCascade
    [exact_match, line_trimmed_match, indentation_flexible_match,
     blank_line_flexible_match]
    code old_code

/-- The `for i, edit in enumerate(edits)` loop of `apply_edits`:
`current_code` is the pristine input kept for rollback, `working` the
buffer spliced so far, `i` the number of edits already applied. -/
def applyGo (current_code : Str) (working : Str) (i : Nat) :
    List Edit → Except Str EditResult
  | [] => .ok ⟨true, working, i, none⟩
  | edit :: rest =>
    if edit.old_code = [] then
      .ok ⟨false, current_code, 0, some (msgEmptyOld (i + 1))⟩
    else
      match locate_edit working edit.old_code with
      | .error e => .error e
      | .ok none => .ok ⟨false, current_code, 0, some (msgNotFound (i + 1))⟩
      | .ok (some (s, e)) =>
        applyGo current_code (working.take s ++ edit.new_code ++ working.drop e)
          (i + 1) rest

/-- `apply_edits`: apply a list of edits sequentially to `current_code`
(the early `if not edits` return coincides with the empty-loop case). -/
def apply_edits (current_code : Str) (edits : List Edit) : Except Str EditResult :=
  applyGo current_code current_code 0 edits

/-- The successful-run function used to state rollback/ordering claims: the
working buffer after applying a list of edits in sequence, or `none` as soon
as one edit has an empty target, is not found, or is ambiguous.  (This is the
loop of `apply_edits` stripped of its bookkeeping.) -/
def runEdits (w : Str) : List Edit → Option Str
  | [] => some w
  | e :: rest =>
    if e.old_code = [] then none
    else match locate_edit w e.old_code with
      | .ok (some (s, en)) => runEdits (w.take s ++ e.new_code ++ w.drop en) rest
      | _ => none

end Editor

namespace Editor

theorem occursAt_true_iff {s pat : Str} {j : Nat} :
    occursAt s pat j = true ↔ (s.drop j).take pat.length = pat := by
  simp [occursAt]

theorem add_length_le_of_occursAt {s pat : Str} {j : Nat}
    (h : occursAt s pat j = true) (hj : j ≤ s.length) :
    j + pat.length ≤ s.length := by
  rw [occursAt_true_iff] at h
  have h1 : pat.length ≤ (s.drop j).length := by
    rw [← h, List.length_take]
    exact Nat.min_le_right _ _
  rw [List.length_drop] at h1
  omega

theorem findFromAux_eq_none_iff {s pat : Str} :
    ∀ (f j : Nat), findFromAux s pat j f = none ↔
      ∀ k, j ≤ k → k < j + f → occursAt s pat k = false := by
  intro f
  induction f with
  | zero =>
    intro j
    constructor
    · intro _ k hk1 hk2
      omega
    · intro _
      rfl
  | succ n ih =>
    intro j
    simp only [findFromAux]
    by_cases hj : occursAt s pat j = true
    · simp only [hj, if_true]
      constructor
      · intro h
        cases h
      · intro h
        have := h j (Nat.le_refl j) (by omega)
        rw [hj] at this
        cases this
    · have hj' : occursAt s pat j = false := by
        simpa using hj
      simp only [hj', Bool.false_eq_true, if_false]
      rw [ih (j + 1)]
      constructor
      · intro h k hk1 hk2
        rcases Nat.eq_or_lt_of_le hk1 with rfl | hlt
        · exact hj'
        · exact h k hlt (by omega)
      · intro h k hk1 hk2
        exact h k (by omega) (by omega)

theorem findFromAux_eq_some {s pat : Str} :
    ∀ (f j k : Nat), findFromAux s pat j f = some k →
      j ≤ k ∧ k < j + f ∧ occursAt s pat k = true ∧
        ∀ m, j ≤ m → m < k → occursAt s pat m = false := by
  intro f
  induction f with
  | zero =>
    intro j k h
    cases h
  | succ n ih =>
    intro j k h
    simp only [findFromAux] at h
    by_cases hj : occursAt s pat j = true
    · simp only [hj, if_true, Option.some.injEq] at h
      subst h
      exact ⟨Nat.le_refl _, by omega, hj, fun m h1 h2 => by omega⟩
    · have hj' : occursAt s pat j = false := by
        simpa using hj
      simp only [hj', Bool.false_eq_true, if_false] at h
      obtain ⟨h1, h2, h3, h4⟩ := ih (j + 1) k h
      refine ⟨by omega, by omega, h3, fun m hm1 hm2 => ?_⟩
      rcases Nat.eq_or_lt_of_le hm1 with rfl | hlt
      · exact hj'
      · exact h4 m hlt hm2

theorem findFromAux_eq_some_of {s pat : Str} :
    ∀ (f j k : Nat), j ≤ k → k < j + f → occursAt s pat k = true →
      (∀ m, j ≤ m → m < k → occursAt s pat m = false) →
      findFromAux s pat j f = some k := by
  intro f
  induction f with
  | zero =>
    intro j k h1 h2 _ _
    omega
  | succ n ih =>
    intro j k h1 h2 h3 h4
    simp only [findFromAux]
    rcases Nat.eq_or_lt_of_le h1 with rfl | hlt
    · simp [h3]
    · have hj : occursAt s pat j = false := h4 j (Nat.le_refl j) hlt
      simp only [hj, Bool.false_eq_true, if_false]
      exact ih (j + 1) k hlt (by omega) h3 (fun m hm1 hm2 => h4 m (by omega) hm2)

theorem pyFindFrom_eq_none_iff {s pat : Str} {b : Nat} :
    pyFindFrom s pat b = none ↔
      ∀ k, b ≤ k → k ≤ s.length → occursAt s pat k = false := by
  unfold pyFindFrom
  by_cases hb : b ≤ s.length
  · rw [if_pos hb, findFromAux_eq_none_iff]
    constructor
    · intro h k h1 h2
      exact h k h1 (by omega)
    · intro h k h1 h2
      exact h k h1 (by omega)
  · rw [if_neg hb]
    constructor
    · intro _ k h1 h2
      omega
    · intro _
      rfl

theorem pyFindFrom_eq_some {s pat : Str} {b k : Nat}
    (h : pyFindFrom s pat b = some k) :
    b ≤ k ∧ k ≤ s.length ∧ occursAt s pat k = true ∧
      ∀ m, b ≤ m → m < k → occursAt s pat m = false := by
  unfold pyFindFrom at h
  by_cases hb : b ≤ s.length
  · rw [if_pos hb] at h
    obtain ⟨h1, h2, h3, h4⟩ := findFromAux_eq_some _ _ _ h
    exact ⟨h1, by omega, h3, h4⟩
  · rw [if_neg hb] at h
    cases h

theorem pyFindFrom_eq_some_of {s pat : Str} {b k : Nat} (h1 : b ≤ k)
    (h2 : k ≤ s.length) (h3 : occursAt s pat k = true)
    (h4 : ∀ m, b ≤ m → m < k → occursAt s pat m = false) :
    pyFindFrom s pat b = some k := by
  unfold pyFindFrom
  rw [if_pos (by omega : b ≤ s.length)]
  exact findFromAux_eq_some_of _ _ _ h1 (by omega) h3 h4

theorem countOcc_eq_zero_iff {s pat : Str} :
    countOcc s pat = 0 ↔ ∀ k, k ≤ s.length → occursAt s pat k = false := by
  unfold countOcc
  rw [List.length_eq_zero, List.filter_eq_nil_iff]
  constructor
  · intro h k hk
    have := h k (List.mem_range.mpr (by omega))
    simpa using this
  · intro h a ha
    have := h a (by have := List.mem_range.mp ha; omega)
    simp [this]

theorem countOcc_one_unique {s pat : Str} (h : countOcc s pat = 1) :
    ∃ j, j ≤ s.length ∧ occursAt s pat j = true ∧
      ∀ m, m ≤ s.length → occursAt s pat m = true → m = j := by
  unfold countOcc at h
  rw [List.length_eq_one] at h
  obtain ⟨a, ha⟩ := h
  have hmem : ∀ x : Nat,
      x ∈ (List.range (s.length + 1)).filter (fun j => occursAt s pat j) ↔ x = a := by
    rw [ha]
    simp
  have ha' := (hmem a).mpr rfl
  rw [List.mem_filter, List.mem_range] at ha'
  refine ⟨a, by omega, ha'.2, ?_⟩
  intro m hm hocc
  exact (hmem m).mp (List.mem_filter.mpr ⟨List.mem_range.mpr (by omega), hocc⟩)

theorem countOcc_two {s pat : Str} (h : 2 ≤ countOcc s pat) :
    ∃ j k, j < k ∧ k ≤ s.length ∧ occursAt s pat j = true ∧
      occursAt s pat k = true := by
  unfold countOcc at h
  have hnd : ((List.range (s.length + 1)).filter (fun j => occursAt s pat j)).Nodup :=
    List.Nodup.filter _ (List.nodup_range _)
  rcases hfl : (List.range (s.length + 1)).filter (fun j => occursAt s pat j) with
    _ | ⟨a, _ | ⟨b, t⟩⟩
  · rw [hfl] at h
    simp at h
  · rw [hfl] at h
    simp at h
  · rw [hfl] at hnd
    have hab : a ≠ b := by
      intro hc
      subst hc
      exact (List.nodup_cons.mp hnd).1 (List.mem_cons_self _ _)
    have hamem : a ∈ (List.range (s.length + 1)).filter (fun j => occursAt s pat j) := by
      rw [hfl]
      simp
    have hbmem : b ∈ (List.range (s.length + 1)).filter (fun j => occursAt s pat j) := by
      rw [hfl]
      simp
    rw [List.mem_filter, List.mem_range] at hamem hbmem
    rcases Nat.lt_or_ge a b with hlt | hge
    · exact ⟨a, b, hlt, by omega, hamem.2, hbmem.2⟩
    · exact ⟨b, a, by omega, by omega, hbmem.2, hamem.2⟩

theorem pyFind_of_countOcc_one {s pat : Str} (h : countOcc s pat = 1) :
    ∃ j, pyFind s pat = some j ∧ occursAt s pat j = true ∧ j ≤ s.length ∧
      pyFindFrom s pat (j + 1) = none := by
  obtain ⟨j, hj1, hj2, hj3⟩ := countOcc_one_unique h
  refine ⟨j, ?_, hj2, hj1, ?_⟩
  · refine pyFindFrom_eq_some_of (Nat.zero_le j) hj1 hj2 ?_
    intro m _ hm2
    by_cases hq : occursAt s pat m = true
    · have := hj3 m (by omega) hq
      omega
    · simpa using hq
  · rw [pyFindFrom_eq_none_iff]
    intro k h1 h2
    by_cases hq : occursAt s pat k = true
    · have := hj3 k h2 hq
      omega
    · simpa using hq

theorem pyFind_of_countOcc_two {s pat : Str} (h : 2 ≤ countOcc s pat) :
    ∃ j, pyFind s pat = some j ∧ (pyFindFrom s pat (j + 1)).isSome = true := by
  obtain ⟨a, b, hab, hb, hoa, hob⟩ := countOcc_two h
  have hfind : ∃ j, pyFind s pat = some j := by
    cases hf : pyFind s pat with
    | none =>
      rw [pyFind, pyFindFrom_eq_none_iff] at hf
      have := hf a (Nat.zero_le a) (by omega)
      rw [hoa] at this
      cases this
    | some j => exact ⟨j, rfl⟩
  obtain ⟨j, hj⟩ := hfind
  obtain ⟨_, hjlen, hjocc, hjmin⟩ := pyFindFrom_eq_some hj
  have hbj : j < b := by
    rcases Nat.lt_or_ge b j with hc | hge2
    · have := hjmin b (Nat.zero_le b) hc
      rw [hob] at this
      cases this
    · rcases Nat.eq_or_lt_of_le hge2 with rfl | h2
      · have := hjmin a (Nat.zero_le a) hab
        rw [hoa] at this
        cases this
      · exact h2
  refine ⟨j, hj, ?_⟩
  cases hs : pyFindFrom s pat (j + 1) with
  | none =>
    rw [pyFindFrom_eq_none_iff] at hs
    have := hs b (by omega) hb
    rw [hob] at this
    cases this
  | some _ => rfl

theorem pyFind_of_countOcc_zero {s pat : Str} (h : countOcc s pat = 0) :
    pyFind s pat = none := by
  rw [pyFind, pyFindFrom_eq_none_iff]
  intro k _ hk
  exact countOcc_eq_zero_iff.mp h k hk

theorem countOcc_eq_zero_of_pyFind_none {s pat : Str} (h : pyFind s pat = none) :
    countOcc s pat = 0 := by
  rw [countOcc_eq_zero_iff]
  rw [pyFind, pyFindFrom_eq_none_iff] at h
  intro k hk
  exact h k (Nat.zero_le k) hk

theorem pyFind_nil_pat (s : Str) : pyFind s [] = some 0 := by
  refine pyFindFrom_eq_some_of (Nat.le_refl 0) (Nat.zero_le _) ?_ ?_
  · simp [occursAt]
  · intro m h1 h2
    omega

theorem runCascade_cons_none {m : Str → Str → Except Str (Option (Nat × Nat))}
    {ms : List (Str → Str → Except Str (Option (Nat × Nat)))} {code old : Str}
    (h : m code old = .ok none) :
    runCascade (m :: ms) code old = runCascade ms code old := by
  simp [runCascade, h]

theorem runCascade_cons_some {m : Str → Str → Except Str (Option (Nat × Nat))}
    {ms : List (Str → Str → Except Str (Option (Nat × Nat)))} {code old : Str}
    {r : Nat × Nat} (h : m code old = .ok (some r)) :
    runCascade (m :: ms) code old = .ok (some r) := by
  simp [runCascade, h]

theorem runCascade_cons_error {m : Str → Str → Except Str (Option (Nat × Nat))}
    {ms : List (Str → Str → Except Str (Option (Nat × Nat)))} {code old : Str}
    {e : Str} (h : m code old = .error e) :
    runCascade (m :: ms) code old = .error e := by
  simp [runCascade, h]

theorem exact_match_of_count_one {code old : Str} (h : countOcc code old = 1) :
    ∃ j, pyFind code old = some j ∧
      exact_match code old = .ok (some (j, j + old.length)) := by
  obtain ⟨j, hfind, _, _, hnone⟩ := pyFind_of_countOcc_one h
  exact ⟨j, hfind, by simp [exact_match, hfind, hnone]⟩

theorem exact_match_of_count_two {code old : Str} (h : 2 ≤ countOcc code old) :
    exact_match code old = .error msgExactAmbig := by
  obtain ⟨j, hfind, hsome⟩ := pyFind_of_countOcc_two h
  rw [Option.isSome_iff_exists] at hsome
  obtain ⟨k, hk⟩ := hsome
  simp [exact_match, hfind, hk]

theorem exact_match_of_count_zero {code old : Str} (h : countOcc code old = 0) :
    exact_match code old = .ok none := by
  simp [exact_match, pyFind_of_countOcc_zero h]

/-- C3: exact matcher trichotomy.  If a non-empty `old_code` occurs exactly
once in `code`, `locate_edit` returns exactly that occurrence's half-open
span; with two or more occurrences the whole lookup fails immediately with
the exact-ambiguity error (no looser matcher is consulted); with zero
occurrences the cascade continues with the remaining three matchers. -/
theorem exact_trichotomy (code old : Str) (_hne : old ≠ []) :
    (countOcc code old = 1 → ∀ j, j ≤ code.length → occursAt code old j = true →
      locate_edit code old = .ok (some (j, j + old.length)))
    ∧ (2 ≤ countOcc code old → locate_edit code old = .error msgExactAmbig)
    ∧ (countOcc code old = 0 → locate_edit code old =
        runCascade [line_trimmed_match, indentation_flexible_match,
          blank_line_flexible_match] code old) := by
  refine ⟨?_, ?_, ?_⟩
  · intro h j hjle hjocc
    obtain ⟨j0, hfind, hmatch⟩ := exact_match_of_count_one h
    obtain ⟨_, hlen0, hocc0, _⟩ := pyFindFrom_eq_some hfind
    obtain ⟨ju, hule, huocc, huniq⟩ := countOcc_one_unique h
    have h1 : j = ju := huniq j hjle hjocc
    have h2 : j0 = ju := huniq j0 hlen0 hocc0
    have hjj : j = j0 := by omega
    subst hjj
    exact runCascade_cons_some hmatch
  · intro h
    exact runCascade_cons_error (exact_match_of_count_two h)
  · intro h
    exact runCascade_cons_none (exact_match_of_count_zero h)

/-- Witness for C3: all three branches of the trichotomy at concrete inputs
(`"b"` once in `"abc"`, twice in `"bb"`, absent from `"abc"`). -/
theorem exact_trichotomy_witness :
    locate_edit "abc".toList "b".toList = .ok (some (1, 1 + "b".toList.length))
    ∧ locate_edit "bb".toList "b".toList = .error msgExactAmbig
    ∧ locate_edit "abc".toList "z".toList =
        runCascade [line_trimmed_match, indentation_flexible_match,
          blank_line_flexible_match] "abc".toList "z".toList := by
  refine ⟨?_, ?_, ?_⟩
  · exact (exact_trichotomy "abc".toList "b".toList (by decide)).1 (by decide)
      1 (by decide) (by decide)
  · exact (exact_trichotomy "bb".toList "b".toList (by decide)).2.1 (by decide)
  · exact (exact_trichotomy "abc".toList "z".toList (by decide)).2.2 (by decide)

theorem applyGo_fail (orig : Str) :
    ∀ (edits : List Edit) (w : Str) (i : Nat) (r : EditResult),
      applyGo orig w i edits = .ok r → r.success = false →
      r.code = orig ∧ r.applied_count = 0 := by
  intro edits
  induction edits with
  | nil =>
    intro w i r h hs
    simp only [applyGo] at h
    injection h with h2
    rw [← h2] at hs
    cases hs
  | cons e rest ih =>
    intro w i r h hs
    simp only [applyGo] at h
    by_cases he : e.old_code = []
    · rw [if_pos he] at h
      injection h with h2
      rw [← h2]
      exact ⟨rfl, rfl⟩
    · rw [if_neg he] at h
      cases hloc : locate_edit w e.old_code with
      | error err =>
        rw [hloc] at h
        cases h
      | ok o =>
        cases o with
        | none =>
          rw [hloc] at h
          injection h with h2
          rw [← h2]
          exact ⟨rfl, rfl⟩
        | some se =>
          obtain ⟨s, en⟩ := se
          rw [hloc] at h
          exact ih _ _ _ h hs

/-- C1: atomic rollback.  Whenever `apply_edits` returns an `EditResult`
with `success = false`, the returned buffer is character-identical to the
input buffer and `applied_count = 0`, however many edits had already been
spliced into the working buffer. -/
theorem apply_edits_atomic_rollback (code : Str) (edits : List Edit)
    (r : EditResult) (h : apply_edits code edits = .ok r)
    (hs : r.success = false) :
    r.code = code ∧ r.applied_count = 0 :=
  applyGo_fail code edits code 0 r h hs

/-- Witness for C1 at a concrete failing batch. -/
theorem apply_edits_atomic_rollback_witness :
    (⟨false, "abc".toList, 0, some (msgNotFound 1)⟩ : EditResult).code = "abc".toList
    ∧ (⟨false, "abc".toList, 0, some (msgNotFound 1)⟩ : EditResult).applied_count = 0 :=
  apply_edits_atomic_rollback "abc".toList [⟨"zzz".toList, "y".toList⟩]
    ⟨false, "abc".toList, 0, some (msgNotFound 1)⟩ (by rfl) (by rfl)

/-- C2 counterexample: an ambiguity detected by the exact matcher escapes
`apply_edits` as a raised error (`ValueError` in the source), not as a
returned `EditResult`. -/
theorem failure_propagation_counterexample :
    apply_edits "bpy bpy".toList [⟨"bpy".toList, "x".toList⟩] =
      .error msgExactAmbig := by
  rfl

theorem applyGo_error_shape (orig : Str) :
    ∀ (edits : List Edit) (w : Str) (i : Nat) (r : EditResult),
      applyGo orig w i edits = .ok r → r.success = false →
      ∃ j, j < edits.length ∧
        (r.error = some (msgEmptyOld (i + j + 1))
          ∨ r.error = some (msgNotFound (i + j + 1))) := by
  intro edits
  induction edits with
  | nil =>
    intro w i r h hs
    simp only [applyGo] at h
    injection h with h2
    rw [← h2] at hs
    cases hs
  | cons e rest ih =>
    intro w i r h hs
    simp only [applyGo] at h
    by_cases he : e.old_code = []
    · rw [if_pos he] at h
      injection h with h2
      rw [← h2]
      exact ⟨0, by simp, Or.inl rfl⟩
    · rw [if_neg he] at h
      cases hloc : locate_edit w e.old_code with
      | error err =>
        rw [hloc] at h
        cases h
      | ok o =>
        cases o with
        | none =>
          rw [hloc] at h
          injection h with h2
          rw [← h2]
          exact ⟨0, by simp, Or.inr rfl⟩
        | some se =>
          obtain ⟨s, en⟩ := se
          rw [hloc] at h
          obtain ⟨j, hj, hor⟩ := ih _ _ _ h hs
          refine ⟨j + 1, by simp; omega, ?_⟩
          have harith : i + 1 + j + 1 = i + (j + 1) + 1 := by omega
          rw [harith] at hor
          exact hor

/-- C2 amended: every failure detected inside the `apply_edits` loop itself
(empty `old_code`, or no matcher finding a span) is reported as a returned
`EditResult` whose error string names the failing edit's 1-based index and
the reason; ambiguity errors raised by a matcher, however, propagate out of
`apply_edits` as exceptions (see the counterexample). -/
theorem apply_edits_failure_reporting (code : Str) (edits : List Edit)
    (r : EditResult) (h : apply_edits code edits = .ok r)
    (hs : r.success = false) :
    ∃ k, k < edits.length ∧
      (r.error = some (msgEmptyOld (k + 1))
        ∨ r.error = some (msgNotFound (k + 1))) := by
  obtain ⟨j, hj, hor⟩ := applyGo_error_shape code edits code 0 r h hs
  refine ⟨j, hj, ?_⟩
  simpa using hor

/-- Witness for the amended C2 at a concrete not-found batch. -/
theorem apply_edits_failure_reporting_witness :
    ∃ k, k < ([⟨"zzz".toList, "y".toList⟩] : List Edit).length ∧
      ((⟨false, "abc".toList, 0, some (msgNotFound 1)⟩ : EditResult).error
          = some (msgEmptyOld (k + 1))
        ∨ (⟨false, "abc".toList, 0, some (msgNotFound 1)⟩ : EditResult).error
          = some (msgNotFound (k + 1))) :=
  apply_edits_failure_reporting "abc".toList [⟨"zzz".toList, "y".toList⟩]
    ⟨false, "abc".toList, 0, some (msgNotFound 1)⟩ (by rfl) (by rfl)

/-- C4: sequential composition on the working buffer.  The second edit's
target exists only in text introduced by the first edit, and the batch
succeeds with `applied_count = 2` and `size = 10` in the final buffer. -/
theorem sequential_composition_scenario :
    apply_edits "color = \"red\"\n".toList
      [⟨"color = \"red\"".toList, "color = \"blue\"\nsize = 5".toList⟩,
       ⟨"size = 5".toList, "size = 10".toList⟩] =
      .ok ⟨true, "color = \"blue\"\nsize = 10\n".toList, 2, none⟩
    ∧ (pyFind "color = \"blue\"\nsize = 10\n".toList "size = 10".toList).isSome
        = true := by
  constructor
  · rfl
  · rfl

theorem applyGo_append (orig : Str) :
    ∀ (pre rest : List Edit) (w w' : Str) (i : Nat),
      runEdits w pre = some w' →
      applyGo orig w i (pre ++ rest) = applyGo orig w' (i + pre.length) rest := by
  intro pre
  induction pre with
  | nil =>
    intro rest w w' i h
    simp only [runEdits, Option.some.injEq] at h
    subst h
    simp
  | cons e p ih =>
    intro rest w w' i h
    simp only [runEdits] at h
    by_cases he : e.old_code = []
    · rw [if_pos he] at h
      cases h
    · rw [if_neg he] at h
      cases hloc : locate_edit w e.old_code with
      | error err =>
        rw [hloc] at h
        cases h
      | ok o =>
        cases o with
        | none =>
          rw [hloc] at h
          cases h
        | some se =>
          obtain ⟨s, en⟩ := se
          rw [hloc] at h
          simp only [List.cons_append, applyGo, if_neg he, hloc, List.append_eq]
          rw [ih rest _ w' (i + 1) h]
          have harith : i + 1 + p.length = i + (e :: p).length := by
            simp
            omega
          rw [harith]

/-- C9 amended: if the first `k` edits all locate and splice successfully
and edit `k+1` (1-based index `k+1`) is the first with an empty `old_code`,
`apply_edits` fails without matching, returning the pristine buffer,
`applied_count = 0` and the error `"Edit k+1: old_code is empty"`.  (If an
earlier edit fails first, its own error is reported instead — see the
counterexample.) -/
theorem empty_old_code_rejection (code w : Str) (edits : List Edit) (k : Nat)
    (e : Edit) (rest : List Edit)
    (hrun : runEdits code (edits.take k) = some w)
    (hdrop : edits.drop k = e :: rest)
    (he : e.old_code = []) :
    apply_edits code edits = .ok ⟨false, code, 0, some (msgEmptyOld (k + 1))⟩ := by
  have hk : k < edits.length := by
    by_contra hc
    push_neg at hc
    rw [List.drop_eq_nil_of_le hc] at hdrop
    cases hdrop
  have hsplit : edits = edits.take k ++ (e :: rest) := by
    conv_lhs => rw [← List.take_append_drop k edits]
    rw [hdrop]
  rw [apply_edits, hsplit]
  rw [applyGo_append code (edits.take k) (e :: rest) code w 0 hrun]
  have hlen : (edits.take k).length = k := by
    rw [List.length_take]
    omega
  rw [hlen, Nat.zero_add]
  simp [applyGo, he]

/-- Witness for the amended C9: first edit applies, second has empty
`old_code`, and the error cites index 2. -/
theorem empty_old_code_rejection_witness :
    apply_edits "ab".toList [⟨"a".toList, "x".toList⟩, ⟨[], "y".toList⟩] =
      .ok ⟨false, "ab".toList, 0, some (msgEmptyOld 2)⟩ :=
  empty_old_code_rejection "ab".toList "xb".toList
    [⟨"a".toList, "x".toList⟩, ⟨[], "y".toList⟩] 1 ⟨[], "y".toList⟩ []
    (by rfl) (by rfl) (by rfl)

/-- C9 counterexample: when an earlier edit fails (here edit 1, not found)
before the first empty `old_code` (edit 2), the returned error cites the
earlier edit, not the empty one, so the claim's unconditional form fails. -/
theorem empty_old_code_rejection_counterexample :
    apply_edits "abc".toList [⟨"zzz".toList, "w".toList⟩, ⟨[], "y".toList⟩] =
      .ok ⟨false, "abc".toList, 0, some (msgNotFound 1)⟩
    ∧ msgNotFound 1 ≠ msgEmptyOld 2 := by
  constructor
  · rfl
  · decide

theorem indentLoop_error (code old : Str) (oi : Nat) :
    ∀ (ds : List Nat) (acc : List (Nat × Nat × Nat)),
      (∃ t ∈ ds, t ≠ oi ∧ 2 ≤ countOcc code (reindent old oi t)) →
      indentLoop code old oi ds acc = .error msgReindentAmbig := by
  intro ds
  induction ds with
  | nil =>
    intro acc h
    simp at h
  | cons t ts ih =>
    intro acc h
    obtain ⟨u, hu, hune, hucount⟩ := h
    simp only [indentLoop]
    by_cases ht : t = oi
    · rw [if_pos ht]
      refine ih acc ⟨u, ?_, hune, hucount⟩
      rcases List.mem_cons.mp hu with rfl | hmem
      · exact absurd ht hune
      · exact hmem
    · rw [if_neg ht]
      rcases Nat.lt_or_ge (countOcc code (reindent old oi t)) 2 with hsmall | hbig
      · have hut : u ≠ t := by
          intro hc
          subst hc
          omega
        have humem : u ∈ ts := by
          rcases List.mem_cons.mp hu with rfl | hmem
          · exact absurd rfl hut
          · exact hmem
        have hcase : countOcc code (reindent old oi t) = 0
            ∨ countOcc code (reindent old oi t) = 1 := by omega
        rcases hcase with h0 | h1
        · rw [pyFind_of_countOcc_zero h0]
          exact ih _ ⟨u, humem, hune, hucount⟩
        · obtain ⟨j, hfind, _, _, hnone⟩ := pyFind_of_countOcc_one h1
          rw [hfind]
          simp only [hnone, Option.isSome_none, Bool.false_eq_true, if_false]
          exact ih _ ⟨u, humem, hune, hucount⟩
      · obtain ⟨j, hfind, hsome⟩ := pyFind_of_countOcc_two hbig
        rw [hfind]
        simp [hsome]

theorem indentLoop_ok (code old : Str) (oi : Nat) :
    ∀ (ds : List Nat) (acc : List (Nat × Nat × Nat)),
      (∀ t ∈ ds, t ≠ oi → countOcc code (reindent old oi t) ≤ 1) →
      indentLoop code old oi ds acc = .ok (acc ++
        (ds.filter (fun u => (u != oi)
            && (countOcc code (reindent old oi u) == 1))).map
          (fun u => ((pyFind code (reindent old oi u)).getD 0,
            (pyFind code (reindent old oi u)).getD 0 + (reindent old oi u).length,
            u))) := by
  intro ds
  induction ds with
  | nil =>
    intro acc _
    simp [indentLoop]
  | cons t ts ih =>
    intro acc hall
    simp only [indentLoop]
    by_cases ht : t = oi
    · rw [if_pos ht]
      have hfilter : ((t :: ts).filter (fun u => (u != oi)
          && (countOcc code (reindent old oi u) == 1))) =
          (ts.filter (fun u => (u != oi)
            && (countOcc code (reindent old oi u) == 1))) := by
        rw [List.filter_cons]
        simp [ht]
      rw [hfilter]
      exact ih acc (fun u hu => hall u (List.mem_cons_of_mem t hu))
    · rw [if_neg ht]
      have hle := hall t (List.mem_cons_self t ts) ht
      have hcase : countOcc code (reindent old oi t) = 0
          ∨ countOcc code (reindent old oi t) = 1 := by omega
      rcases hcase with h0 | h1
      · rw [pyFind_of_countOcc_zero h0]
        have hfilter : ((t :: ts).filter (fun u => (u != oi)
            && (countOcc code (reindent old oi u) == 1))) =
            (ts.filter (fun u => (u != oi)
              && (countOcc code (reindent old oi u) == 1))) := by
          rw [List.filter_cons]
          simp [h0]
        rw [hfilter]
        exact ih acc (fun u hu => hall u (List.mem_cons_of_mem t hu))
      · obtain ⟨j, hfind, _, _, hnone⟩ := pyFind_of_countOcc_one h1
        rw [hfind]
        simp only [hnone, Option.isSome_none, Bool.false_eq_true, if_false]
        rw [ih _ (fun u hu => hall u (List.mem_cons_of_mem t hu))]
        have hfilter : ((t :: ts).filter (fun u => (u != oi)
            && (countOcc code (reindent old oi u) == 1))) =
            t :: (ts.filter (fun u => (u != oi)
              && (countOcc code (reindent old oi u) == 1))) := by
          rw [List.filter_cons]
          simp [ht, h1]
        rw [hfilter]
        simp [hfind, List.append_assoc]

/-- C5: indentation-flexible matcher outcome.  A fully blank `old_code`
declines; otherwise, over the distinct indentation depths of the buffer
other than `old_code`'s own depth: a depth whose re-indented variant occurs
twice fails the lookup with the re-indent ambiguity error; with no such
depth, exactly one depth with a unique hit returns that hit's span, two or
more hit depths fail with the multi-indent ambiguity error, and zero hits
decline (not found). -/
theorem indentation_flexible_outcome (code old : Str) :
    (detect_indent old = none → indentation_flexible_match code old = .ok none)
    ∧ (∀ oi, detect_indent old = some oi →
        ((∃ t ∈ codeIndents code, t ≠ oi ∧
            2 ≤ countOcc code (reindent old oi t)) →
          indentation_flexible_match code old = .error msgReindentAmbig)
        ∧ ((∀ t ∈ codeIndents code, t ≠ oi →
              countOcc code (reindent old oi t) ≤ 1) →
            (∀ t p, ((codeIndents code).filter (fun u => (u != oi)
                  && (countOcc code (reindent old oi u) == 1))) = [t] →
              pyFind code (reindent old oi t) = some p →
              indentation_flexible_match code old =
                .ok (some (p, p + (reindent old oi t).length)))
            ∧ (2 ≤ ((codeIndents code).filter (fun u => (u != oi)
                  && (countOcc code (reindent old oi u) == 1))).length →
              indentation_flexible_match code old = .error msgMultiIndentAmbig)
            ∧ (((codeIndents code).filter (fun u => (u != oi)
                  && (countOcc code (reindent old oi u) == 1))).length = 0 →
              indentation_flexible_match code old = .ok none))) := by
  constructor
  · intro h
    simp [indentation_flexible_match, h]
  · intro oi hoi
    constructor
    · intro hex
      simp only [indentation_flexible_match, hoi]
      rw [indentLoop_error code old oi (codeIndents code) [] hex]
    · intro hall
      have hloop := indentLoop_ok code old oi (codeIndents code) [] hall
      refine ⟨?_, ?_, ?_⟩
      · intro t p hfilter hfind
        simp only [indentation_flexible_match, hoi]
        rw [hloop, hfilter]
        simp [hfind]
      · intro hlen
        simp only [indentation_flexible_match, hoi]
        rw [hloop]
        rcases hfl : ((codeIndents code).filter (fun u => (u != oi)
            && (countOcc code (reindent old oi u) == 1))) with _ | ⟨a, _ | ⟨b, t'⟩⟩
        · rw [hfl] at hlen
          simp at hlen
        · rw [hfl] at hlen
          simp at hlen
        · simp
      · intro hlen
        simp only [indentation_flexible_match, hoi]
        rw [hloop]
        rw [List.length_eq_zero] at hlen
        rw [hlen]
        simp

/-- Witness for C5: all five branches at concrete inputs (blank snippet;
a depth with a duplicated re-indented variant; a unique single-depth hit;
two depths each hitting once; no hit at any depth). -/
theorem indentation_flexible_outcome_witness :
    indentation_flexible_match "any".toList "   ".toList = .ok none
    ∧ indentation_flexible_match "  x\n  x".toList "x".toList =
        .error msgReindentAmbig
    ∧ indentation_flexible_match "  a".toList "a".toList =
        .ok (some (0, 0 + (reindent "a".toList 0 2).length))
    ∧ indentation_flexible_match "  q\n  w\n    q\n    w".toList "q\nw".toList =
        .error msgMultiIndentAmbig
    ∧ indentation_flexible_match "  a".toList "b".toList = .ok none := by
  refine ⟨?_, ?_, ?_, ?_, ?_⟩
  · exact (indentation_flexible_outcome "any".toList "   ".toList).1 (by rfl)
  · exact (((indentation_flexible_outcome "  x\n  x".toList "x".toList).2 0
      (by rfl)).1 (by refine ⟨2, by decide, by decide, by decide⟩))
  · exact (((indentation_flexible_outcome "  a".toList "a".toList).2 0
      (by rfl)).2 (by decide)).1 2 0 (by rfl) (by rfl)
  · exact (((indentation_flexible_outcome "  q\n  w\n    q\n    w".toList
      "q\nw".toList).2 0 (by rfl)).2 (by decide)).2.1 (by decide)
  · exact (((indentation_flexible_outcome "  a".toList "b".toList).2 0
      (by rfl)).2 (by decide)).2.2 (by rfl)

theorem line_trimmed_match_of_count_one {code old : Str}
    (h : countOcc (build_trimmed_map code).1 (joinNl ((splitNl old).map rstrip)) = 1) :
    ∃ p, pyFind (build_trimmed_map code).1 (joinNl ((splitNl old).map rstrip))
        = some p ∧
      line_trimmed_match code old = .ok (some
        (map_trimmed_pos_to_orig code (build_trimmed_map code).1
          (build_trimmed_map code).2 p,
         map_trimmed_pos_to_orig code (build_trimmed_map code).1
          (build_trimmed_map code).2
          (p + (joinNl ((splitNl old).map rstrip)).length))) := by
  obtain ⟨p, hfind, _, _, hnone⟩ := pyFind_of_countOcc_one h
  refine ⟨p, hfind, ?_⟩
  simp only [line_trimmed_match]
  rw [hfind]
  simp [hnone]

/-- C8: line-trimmed matcher on trailing-whitespace drift.  If `old_code`
has no exact occurrence in `code` but its per-line trailing-whitespace
stripped form occurs exactly once in the same normalization of `code` (at
position `p`), `locate_edit` returns the remapped original span, and a
single-edit batch substitutes `new_code` for the matched original text. -/
theorem line_trimmed_drift (code old new : Str) (p : Nat)
    (h1 : pyFind code old = none)
    (h2 : countOcc (build_trimmed_map code).1 (joinNl ((splitNl old).map rstrip)) = 1)
    (h3 : pyFind (build_trimmed_map code).1 (joinNl ((splitNl old).map rstrip))
      = some p) :
    locate_edit code old = .ok (some
      (map_trimmed_pos_to_orig code (build_trimmed_map code).1
        (build_trimmed_map code).2 p,
       map_trimmed_pos_to_orig code (build_trimmed_map code).1
        (build_trimmed_map code).2
        (p + (joinNl ((splitNl old).map rstrip)).length)))
    ∧ apply_edits code [⟨old, new⟩] = .ok ⟨true,
        code.take (map_trimmed_pos_to_orig code (build_trimmed_map code).1
          (build_trimmed_map code).2 p)
        ++ new ++
        code.drop (map_trimmed_pos_to_orig code (build_trimmed_map code).1
          (build_trimmed_map code).2
          (p + (joinNl ((splitNl old).map rstrip)).length)),
        1, none⟩ := by
  have hne : old ≠ [] := by
    intro hc
    subst hc
    rw [pyFind_nil_pat] at h1
    cases h1
  obtain ⟨q, hq, hmatch⟩ := line_trimmed_match_of_count_one h2
  have hpq : q = p := by
    rw [h3] at hq
    injection hq with hv
    omega
  subst hpq
  have hexact : exact_match code old = .ok none :=
    exact_match_of_count_zero (countOcc_eq_zero_of_pyFind_none h1)
  have hloc : locate_edit code old = .ok (some
      (map_trimmed_pos_to_orig code (build_trimmed_map code).1
        (build_trimmed_map code).2 q,
       map_trimmed_pos_to_orig code (build_trimmed_map code).1
        (build_trimmed_map code).2
        (q + (joinNl ((splitNl old).map rstrip)).length))) := by
    rw [locate_edit, runCascade_cons_none hexact]
    exact runCascade_cons_some hmatch
  refine ⟨hloc, ?_⟩
  simp only [apply_edits, applyGo, hne, if_neg, hloc]
  rfl

/-- Witness for C8 at a concrete buffer: the edit's `old_code` is the
buffer's single line plus three trailing spaces; the batch succeeds and
replaces `0.1` with `0.8`. -/
theorem line_trimmed_drift_witness :
    (locate_edit "bsdf.inputs[\"Metallic\"].default_value = 0.1\n".toList
        "bsdf.inputs[\"Metallic\"].default_value = 0.1   ".toList = .ok (some
      (map_trimmed_pos_to_orig "bsdf.inputs[\"Metallic\"].default_value = 0.1\n".toList
        (build_trimmed_map "bsdf.inputs[\"Metallic\"].default_value = 0.1\n".toList).1
        (build_trimmed_map "bsdf.inputs[\"Metallic\"].default_value = 0.1\n".toList).2 0,
       map_trimmed_pos_to_orig "bsdf.inputs[\"Metallic\"].default_value = 0.1\n".toList
        (build_trimmed_map "bsdf.inputs[\"Metallic\"].default_value = 0.1\n".toList).1
        (build_trimmed_map "bsdf.inputs[\"Metallic\"].default_value = 0.1\n".toList).2
        (0 + (joinNl ((splitNl "bsdf.inputs[\"Metallic\"].default_value = 0.1   ".toList).map
          rstrip)).length)))
    ∧ apply_edits "bsdf.inputs[\"Metallic\"].default_value = 0.1\n".toList
        [⟨"bsdf.inputs[\"Metallic\"].default_value = 0.1   ".toList,
          "bsdf.inputs[\"Metallic\"].default_value = 0.8".toList⟩] = .ok ⟨true,
        "bsdf.inputs[\"Metallic\"].default_value = 0.1\n".toList.take
          (map_trimmed_pos_to_orig "bsdf.inputs[\"Metallic\"].default_value = 0.1\n".toList
            (build_trimmed_map "bsdf.inputs[\"Metallic\"].default_value = 0.1\n".toList).1
            (build_trimmed_map "bsdf.inputs[\"Metallic\"].default_value = 0.1\n".toList).2 0)
        ++ "bsdf.inputs[\"Metallic\"].default_value = 0.8".toList ++
        "bsdf.inputs[\"Metallic\"].default_value = 0.1\n".toList.drop
          (map_trimmed_pos_to_orig "bsdf.inputs[\"Metallic\"].default_value = 0.1\n".toList
            (build_trimmed_map "bsdf.inputs[\"Metallic\"].default_value = 0.1\n".toList).1
            (build_trimmed_map "bsdf.inputs[\"Metallic\"].default_value = 0.1\n".toList).2
            (0 + (joinNl ((splitNl "bsdf.inputs[\"Metallic\"].default_value = 0.1   ".toList).map
              rstrip)).length)),
        1, none⟩) := by
  exact line_trimmed_drift
    "bsdf.inputs[\"Metallic\"].default_value = 0.1\n".toList
    "bsdf.inputs[\"Metallic\"].default_value = 0.1   ".toList
    "bsdf.inputs[\"Metallic\"].default_value = 0.8".toList 0
    (by decide) (by decide) (by decide)

theorem splitNl_ne_nil (s : Str) : splitNl s ≠ [] := by
  cases s with
  | nil =>
    simp [splitNl]
  | cons c rest =>
    simp only [splitNl]
    by_cases hc : c = '\n'
    · simp [hc]
    · simp only [hc, if_false]
      cases splitNl rest <;> simp

theorem joinNl_cons_of_ne_nil (l : Str) {ls : List Str} (h : ls ≠ []) :
    joinNl (l :: ls) = l ++ '\n' :: joinNl ls := by
  cases ls with
  | nil => exact absurd rfl h
  | cons x xs => rfl

theorem splitNl_cons_newline (rest : Str) :
    splitNl ('\n' :: rest) = [] :: splitNl rest := by
  simp [splitNl]

theorem splitNl_cons_other {c : Char} (hc : c ≠ '\n') {rest l : Str}
    {ls : List Str} (hs : splitNl rest = l :: ls) :
    splitNl (c :: rest) = (c :: l) :: ls := by
  simp [splitNl, hc, hs]

theorem joinNl_splitNl (s : Str) : joinNl (splitNl s) = s := by
  induction s with
  | nil => rfl
  | cons c rest ih =>
    by_cases hc : c = '\n'
    · subst hc
      rw [splitNl_cons_newline, joinNl_cons_of_ne_nil _ (splitNl_ne_nil rest), ih]
      rfl
    · rcases hs : splitNl rest with _ | ⟨l, ls⟩
      · exact absurd hs (splitNl_ne_nil rest)
      · rw [splitNl_cons_other hc hs]
        rw [hs] at ih
        cases ls with
        | nil =>
          simp only [joinNl] at ih ⊢
          rw [ih]
        | cons y ys =>
          rw [joinNl_cons_of_ne_nil _ (by simp)] at ih
          rw [joinNl_cons_of_ne_nil _ (by simp), ← ih]
          rfl

theorem splitNl_no_newline (s : Str) : ∀ l ∈ splitNl s, '\n' ∉ l := by
  induction s with
  | nil =>
    intro l hl
    simp [splitNl] at hl
    simp [hl]
  | cons c rest ih =>
    intro l hl
    by_cases hc : c = '\n'
    · subst hc
      rw [splitNl_cons_newline] at hl
      rcases List.mem_cons.mp hl with rfl | hl
      · simp
      · exact ih l hl
    · rcases hs : splitNl rest with _ | ⟨x, xs⟩
      · exact absurd hs (splitNl_ne_nil rest)
      · rw [splitNl_cons_other hc hs] at hl
        rcases List.mem_cons.mp hl with rfl | hl
        · intro hmem
          rcases List.mem_cons.mp hmem with h1 | h1
          · exact hc h1.symm
          · exact ih x (by rw [hs]; simp) h1
        · exact ih l (by rw [hs]; simp [hl])

theorem splitNl_of_no_newline {l : Str} (h : '\n' ∉ l) : splitNl l = [l] := by
  induction l with
  | nil => rfl
  | cons c rest ih =>
    simp only [splitNl]
    have hc : c ≠ '\n' := by
      intro hcc
      exact h (by simp [hcc])
    have hrest : '\n' ∉ rest := by
      intro hm
      exact h (by simp [hm])
    simp only [hc, if_false, ih hrest]

theorem splitNl_append_newline {l : Str} (t : Str) (h : '\n' ∉ l) :
    splitNl (l ++ '\n' :: t) = l :: splitNl t := by
  induction l with
  | nil =>
    simp [splitNl]
  | cons c rest ih =>
    have hc : c ≠ '\n' := by
      intro hcc
      exact h (by simp [hcc])
    have hrest : '\n' ∉ rest := by
      intro hm
      exact h (by simp [hm])
    rw [List.cons_append, splitNl_cons_other hc (ih hrest)]

theorem splitNl_joinNl {ls : List Str} (hne : ls ≠ [])
    (h : ∀ l ∈ ls, '\n' ∉ l) : splitNl (joinNl ls) = ls := by
  induction ls with
  | nil => exact absurd rfl hne
  | cons l ls ih =>
    cases ls with
    | nil =>
      simp only [joinNl]
      exact splitNl_of_no_newline (h l (by simp))
    | cons x xs =>
      rw [joinNl_cons_of_ne_nil _ (by simp)]
      rw [splitNl_append_newline _ (h l (by simp))]
      rw [ih (by simp) (fun m hm => h m (by simp [hm]))]

theorem rstrip_length_le (l : Str) : (rstrip l).length ≤ l.length := by
  unfold rstrip
  rw [List.length_reverse]
  calc (l.reverse.dropWhile pyIsSpace).length
      ≤ l.reverse.length := (List.dropWhile_sublist _).length_le
    _ = l.length := List.length_reverse l

theorem rstrip_no_newline {l : Str} (h : '\n' ∉ l) : '\n' ∉ rstrip l := by
  unfold rstrip
  intro hm
  rw [List.mem_reverse] at hm
  have := (List.dropWhile_sublist _).subset hm
  exact h (List.mem_reverse.mp this)

theorem joinNl_length_ge (l : Str) (ls : List Str) :
    l.length ≤ (joinNl (l :: ls)).length := by
  cases ls with
  | nil => simp [joinNl]
  | cons x xs =>
    rw [joinNl_cons_of_ne_nil _ (by simp)]
    simp

theorem joinNl_length_cons (l : Str) {ls : List Str} (h : ls ≠ []) :
    (joinNl (l :: ls)).length = l.length + 1 + (joinNl ls).length := by
  rw [joinNl_cons_of_ne_nil _ h]
  simp
  omega

theorem mapGo_le : ∀ (lls tls : List Str) (s0 off tpos B : Nat),
    List.Forall₂ (fun tl ol => tl.length ≤ ol.length) tls lls →
    B = s0 + (joinNl lls).length →
    mapGo B tls (buildStarts s0 lls) off tpos ≤ B := by
  intro lls
  induction lls with
  | nil =>
    intro tls s0 off tpos B h hB
    cases h
    simp [mapGo]
  | cons ol lls' ih =>
    intro tls s0 off tpos B h hB
    cases h with
    | cons h1 h2 =>
      rename_i tl tls'
      simp only [buildStarts, mapGo]
      by_cases hb : tpos ≤ off + tl.length
      · rw [if_pos hb]
        have h3 : ol.length ≤ (joinNl (ol :: lls')).length := joinNl_length_ge ol lls'
        omega
      · rw [if_neg hb]
        cases lls' with
        | nil =>
          cases h2
          simp [mapGo, buildStarts]
        | cons ol2 lls'' =>
          have hlen : (joinNl (ol :: ol2 :: lls'')).length =
              ol.length + 1 + (joinNl (ol2 :: lls'')).length :=
            joinNl_length_cons ol (by simp)
          exact ih tls' (s0 + ol.length + 1) (off + tl.length + 1) tpos B h2
            (by omega)

theorem mapGo_ge : ∀ (lls tls : List Str) (s0 off tpos B : Nat),
    List.Forall₂ (fun tl ol => tl.length ≤ ol.length) tls lls →
    B = s0 + (joinNl lls).length →
    s0 ≤ mapGo B tls (buildStarts s0 lls) off tpos := by
  intro lls
  induction lls with
  | nil =>
    intro tls s0 off tpos B h hB
    cases h
    simp only [mapGo]
    omega
  | cons ol lls' ih =>
    intro tls s0 off tpos B h hB
    cases h with
    | cons h1 h2 =>
      rename_i tl tls'
      simp only [buildStarts, mapGo]
      by_cases hb : tpos ≤ off + tl.length
      · rw [if_pos hb]
        omega
      · rw [if_neg hb]
        cases lls' with
        | nil =>
          cases h2
          simp only [mapGo, buildStarts]
          omega
        | cons ol2 lls'' =>
          have hlen : (joinNl (ol :: ol2 :: lls'')).length =
              ol.length + 1 + (joinNl (ol2 :: lls'')).length :=
            joinNl_length_cons ol (by simp)
          have := ih tls' (s0 + ol.length + 1) (off + tl.length + 1) tpos B h2
            (by omega)
          omega

theorem mapGo_mono : ∀ (lls tls : List Str) (s0 off t t' B : Nat),
    List.Forall₂ (fun tl ol => tl.length ≤ ol.length) tls lls →
    B = s0 + (joinNl lls).length → t ≤ t' →
    mapGo B tls (buildStarts s0 lls) off t
      ≤ mapGo B tls (buildStarts s0 lls) off t' := by
  intro lls
  induction lls with
  | nil =>
    intro tls s0 off t t' B h hB htt
    cases h
    simp [mapGo]
  | cons ol lls' ih =>
    intro tls s0 off t t' B h hB htt
    cases h with
    | cons h1 h2 =>
      rename_i tl tls'
      simp only [buildStarts, mapGo]
      by_cases hb2 : t' ≤ off + tl.length
      · rw [if_pos hb2, if_pos (by omega : t ≤ off + tl.length)]
        omega
      · rw [if_neg hb2]
        by_cases hb1 : t ≤ off + tl.length
        · rw [if_pos hb1]
          cases lls' with
          | nil =>
            cases h2
            simp only [mapGo, buildStarts]
            have hj : (joinNl [ol]).length = ol.length := rfl
            omega
          | cons ol2 lls'' =>
            have hlen : (joinNl (ol :: ol2 :: lls'')).length =
                ol.length + 1 + (joinNl (ol2 :: lls'')).length :=
              joinNl_length_cons ol (by simp)
            have := mapGo_ge (ol2 :: lls'') tls' (s0 + ol.length + 1)
              (off + tl.length + 1) t' B h2 (by omega)
            omega
        · rw [if_neg hb1]
          cases lls' with
          | nil =>
            cases h2
            simp [mapGo, buildStarts]
          | cons ol2 lls'' =>
            have hlen : (joinNl (ol :: ol2 :: lls'')).length =
                ol.length + 1 + (joinNl (ol2 :: lls'')).length :=
              joinNl_length_cons ol (by simp)
            exact ih tls' (s0 + ol.length + 1) (off + tl.length + 1) t t' B h2
              (by omega) htt

theorem trimmed_forall₂ (code : Str) :
    List.Forall₂ (fun tl ol => tl.length ≤ ol.length)
      (splitNl (build_trimmed_map code).1) (splitNl code) := by
  have hsplit : splitNl (build_trimmed_map code).1 = (splitNl code).map rstrip := by
    show splitNl (joinNl ((splitNl code).map rstrip)) = (splitNl code).map rstrip
    refine splitNl_joinNl ?_ ?_
    · intro hc
      exact splitNl_ne_nil code (List.map_eq_nil_iff.mp hc)
    · intro l hl
      rw [List.mem_map] at hl
      obtain ⟨x, hx, rfl⟩ := hl
      exact rstrip_no_newline (splitNl_no_newline code x hx)
  rw [hsplit, List.forall₂_map_left_iff]
  rw [List.forall₂_same]
  intro x _
  exact rstrip_length_le x

theorem map_trimmed_le (code : Str) (tpos : Nat) :
    map_trimmed_pos_to_orig code (build_trimmed_map code).1
      (build_trimmed_map code).2 tpos ≤ code.length := by
  have hB : code.length = 0 + (joinNl (splitNl code)).length := by
    rw [joinNl_splitNl]
    omega
  exact mapGo_le (splitNl code) (splitNl (build_trimmed_map code).1) 0 0 tpos
    code.length (trimmed_forall₂ code) hB

theorem map_trimmed_mono (code : Str) {t t' : Nat} (h : t ≤ t') :
    map_trimmed_pos_to_orig code (build_trimmed_map code).1
        (build_trimmed_map code).2 t
      ≤ map_trimmed_pos_to_orig code (build_trimmed_map code).1
        (build_trimmed_map code).2 t' := by
  have hB : code.length = 0 + (joinNl (splitNl code)).length := by
    rw [joinNl_splitNl]
    omega
  exact mapGo_mono (splitNl code) (splitNl (build_trimmed_map code).1) 0 0 t t'
    code.length (trimmed_forall₂ code) hB h

theorem keptInfo_mem : ∀ (ls : List Str) (off : Nat) (e : Nat × Nat),
    e ∈ keptInfo off ls →
    off ≤ e.1 ∧ 1 ≤ e.2 ∧ e.1 + e.2 ≤ off + (joinNl ls).length := by
  intro ls
  induction ls with
  | nil =>
    intro off e h
    simp [keptInfo] at h
  | cons l ls' ih =>
    intro off e h
    simp only [keptInfo] at h
    by_cases hb : pyStrip l ≠ []
    · rw [if_pos hb] at h
      rcases List.mem_cons.mp h with rfl | hm
      · refine ⟨Nat.le_refl _, ?_, ?_⟩
        · have hlne : l ≠ [] := by
            intro hc
            subst hc
            exact hb rfl
          show 1 ≤ l.length
          have := List.length_pos.mpr hlne
          omega
        · show off + l.length ≤ off + (joinNl (l :: ls')).length
          have := joinNl_length_ge l ls'
          omega
      · obtain ⟨h1, h2, h3⟩ := ih (off + l.length + 1) e hm
        cases ls' with
        | nil => simp [keptInfo] at hm
        | cons x xs =>
          have hlen := joinNl_length_cons l (show (x :: xs) ≠ [] by simp)
          exact ⟨by omega, h2, by omega⟩
    · rw [if_neg hb] at h
      obtain ⟨h1, h2, h3⟩ := ih (off + l.length + 1) e h
      cases ls' with
      | nil => simp [keptInfo] at h
      | cons x xs =>
        have hlen := joinNl_length_cons l (show (x :: xs) ≠ [] by simp)
        exact ⟨by omega, h2, by omega⟩

theorem keptInfo_pairwise : ∀ (ls : List Str) (off : Nat),
    List.Pairwise (fun a b => a.1 + a.2 + 1 ≤ b.1) (keptInfo off ls) := by
  intro ls
  induction ls with
  | nil =>
    intro off
    simp [keptInfo]
  | cons l ls' ih =>
    intro off
    simp only [keptInfo]
    by_cases hb : pyStrip l ≠ []
    · rw [if_pos hb]
      refine List.pairwise_cons.mpr ⟨?_, ih (off + l.length + 1)⟩
      intro e he
      have := (keptInfo_mem ls' (off + l.length + 1) e he).1
      show off + l.length + 1 ≤ e.1
      omega
    · rw [if_neg hb]
      exact ih _

theorem spansOf_shape : ∀ (kept : List (Nat × Nat)) (x : Nat × Nat),
    x ∈ spansOf kept → x.2 = x.1 + 1 := by
  intro kept
  induction kept with
  | nil =>
    intro x h
    simp [spansOf] at h
  | cons e rest ih =>
    intro x h
    obtain ⟨s, L⟩ := e
    cases rest with
    | nil =>
      simp only [spansOf, List.mem_map] at h
      obtain ⟨c, _, rfl⟩ := h
      rfl
    | cons e2 rest' =>
      simp only [spansOf] at h
      rcases List.mem_append.mp h with h1 | h2
      · rcases List.mem_append.mp h1 with h1a | h1b
        · rw [List.mem_map] at h1a
          obtain ⟨c, _, rfl⟩ := h1a
          rfl
        · rw [List.mem_singleton] at h1b
          subst h1b
          rfl
      · exact ih x h2

theorem spansOf_lb : ∀ (kept : List (Nat × Nat)) (lo : Nat),
    (∀ e ∈ kept, lo ≤ e.1) → ∀ x ∈ spansOf kept, lo ≤ x.1 := by
  intro kept
  induction kept with
  | nil =>
    intro lo _ x h
    simp [spansOf] at h
  | cons e rest ih =>
    intro lo hlo x h
    obtain ⟨s, L⟩ := e
    have hs : lo ≤ s := hlo (s, L) (List.mem_cons_self _ _)
    cases rest with
    | nil =>
      simp only [spansOf, List.mem_map] at h
      obtain ⟨c, _, rfl⟩ := h
      show lo ≤ s + c
      omega
    | cons e2 rest' =>
      simp only [spansOf] at h
      rcases List.mem_append.mp h with h1 | h2
      · rcases List.mem_append.mp h1 with h1a | h1b
        · rw [List.mem_map] at h1a
          obtain ⟨c, _, rfl⟩ := h1a
          show lo ≤ s + c
          omega
        · rw [List.mem_singleton] at h1b
          subst h1b
          show lo ≤ s + L
          omega
      · exact ih lo (fun u hu => hlo u (List.mem_cons_of_mem _ hu)) x h2

theorem spansOf_pairwise : ∀ (kept : List (Nat × Nat)),
    List.Pairwise (fun a b => a.1 + a.2 + 1 ≤ b.1) kept →
    List.Pairwise (fun x y => x.1 < y.1) (spansOf kept) := by
  intro kept
  induction kept with
  | nil =>
    intro _
    simp [spansOf]
  | cons e rest ih =>
    intro hp
    obtain ⟨s, L⟩ := e
    obtain ⟨hhead, htail⟩ := List.pairwise_cons.mp hp
    cases rest with
    | nil =>
      simp only [spansOf]
      rw [List.pairwise_map]
      refine List.Pairwise.imp ?_ (List.pairwise_lt_range L)
      intro a b hab
      show s + a < s + b
      omega
    | cons e2 rest' =>
      simp only [spansOf]
      rw [List.pairwise_append]
      refine ⟨?_, ih htail, ?_⟩
      · rw [List.pairwise_append]
        refine ⟨?_, by simp, ?_⟩
        · rw [List.pairwise_map]
          refine List.Pairwise.imp ?_ (List.pairwise_lt_range L)
          intro a b hab
          show s + a < s + b
          omega
        · intro a ha b hb
          rw [List.mem_map] at ha
          obtain ⟨c, hc, rfl⟩ := ha
          rw [List.mem_singleton] at hb
          subst hb
          rw [List.mem_range] at hc
          show s + c < s + L
          omega
      · intro a ha b hb
        have hb1 : s + L + 1 ≤ b.1 := spansOf_lb (e2 :: rest') (s + L + 1)
          (fun u hu => by have := hhead u hu; omega) b hb
        rcases List.mem_append.mp ha with h1a | h1b
        · rw [List.mem_map] at h1a
          obtain ⟨c, hc, rfl⟩ := h1a
          rw [List.mem_range] at hc
          show s + c < b.1
          omega
        · rw [List.mem_singleton] at h1b
          subst h1b
          show s + L < b.1
          omega

theorem spansOf_ub : ∀ (kept : List (Nat × Nat)) (B : Nat),
    (∀ e ∈ kept, e.1 + e.2 ≤ B) →
    List.Pairwise (fun a b => a.1 + a.2 + 1 ≤ b.1) kept →
    ∀ x ∈ spansOf kept, x.2 ≤ B := by
  intro kept
  induction kept with
  | nil =>
    intro B _ _ x h
    simp [spansOf] at h
  | cons e rest ih =>
    intro B hB hp x h
    obtain ⟨s, L⟩ := e
    obtain ⟨hhead, htail⟩ := List.pairwise_cons.mp hp
    have hsB : s + L ≤ B := hB (s, L) (List.mem_cons_self _ _)
    cases rest with
    | nil =>
      simp only [spansOf, List.mem_map] at h
      obtain ⟨c, hc, rfl⟩ := h
      rw [List.mem_range] at hc
      show s + c + 1 ≤ B
      omega
    | cons e2 rest' =>
      simp only [spansOf] at h
      rcases List.mem_append.mp h with h1 | h2
      · rcases List.mem_append.mp h1 with h1a | h1b
        · rw [List.mem_map] at h1a
          obtain ⟨c, hc, rfl⟩ := h1a
          rw [List.mem_range] at hc
          show s + c + 1 ≤ B
          omega
        · rw [List.mem_singleton] at h1b
          subst h1b
          have h2B : e2.1 + e2.2 ≤ B := hB e2 (List.mem_cons_of_mem _ (List.mem_cons_self _ _))
          have hgap : s + L + 1 ≤ e2.1 := hhead e2 (List.mem_cons_self _ _)
          show s + L + 1 ≤ B
          omega
      · exact ih B (fun u hu => hB u (List.mem_cons_of_mem _ hu)) htail x h2

theorem spansOf_length : ∀ (kept : List (Nat × Nat)) (f : Nat × Nat → Str),
    (∀ e ∈ kept, (f e).length = e.2) →
    (spansOf kept).length = (joinNl (kept.map f)).length := by
  intro kept
  induction kept with
  | nil =>
    intro f _
    rfl
  | cons e rest ih =>
    intro f hf
    obtain ⟨s, L⟩ := e
    have hfe : (f (s, L)).length = L := hf (s, L) (List.mem_cons_self _ _)
    cases rest with
    | nil =>
      simp only [spansOf, List.map, joinNl, List.length_map, List.length_range]
      omega
    | cons e2 rest' =>
      have hlen := joinNl_length_cons (f (s, L))
        (show (List.map f (e2 :: rest')) ≠ [] by simp)
      simp only [spansOf, List.map]
      rw [List.length_append, List.length_append, List.length_map,
        List.length_range]
      rw [List.map] at hlen
      rw [hlen]
      rw [ih f (fun u hu => hf u (List.mem_cons_of_mem _ hu))]
      simp
      omega

theorem getLastD_mem {l : List (Nat × Nat)} (d : Nat × Nat) (h : l ≠ []) :
    l.getLastD d ∈ l := by
  rw [List.getLastD_eq_getLast?, List.getLast?_eq_getLast l h]
  exact List.getLast_mem h

theorem getLastD_eq_getElem_pred {l : List (Nat × Nat)} (d : Nat × Nat)
    (_h : l ≠ []) (hlt : l.length - 1 < l.length) :
    l.getLastD d = l[l.length - 1] := by
  rw [List.getLastD_eq_getLast?, List.getLast?_eq_getElem?,
    List.getElem?_eq_getElem hlt]
  rfl

theorem collapsed_le (spans : List (Nat × Nat)) (B : Nat)
    (hshape : ∀ x ∈ spans, x.2 = x.1 + 1)
    (hub : ∀ x ∈ spans, x.2 ≤ B) (p : Nat) :
    collapsed_pos_to_orig spans p ≤ B := by
  unfold collapsed_pos_to_orig
  by_cases h0 : p = 0
  · rw [if_pos h0]
    omega
  · rw [if_neg h0]
    by_cases hlen : spans.length ≤ p
    · rw [if_pos hlen]
      cases hs : spans with
      | nil => simp
      | cons a as =>
        have hne : spans ≠ [] := by
          rw [hs]
          simp
        rw [← hs]
        exact hub _ (getLastD_mem (0, 0) hne)
    · rw [if_neg hlen]
      push_neg at hlen
      rw [List.getD_eq_getElem _ _ hlen]
      have hmem := List.getElem_mem hlen
      have h1 := hshape _ hmem
      have h2 := hub _ hmem
      omega

theorem collapsed_mono (spans : List (Nat × Nat))
    (hshape : ∀ x ∈ spans, x.2 = x.1 + 1)
    (hpw : List.Pairwise (fun x y => x.1 < y.1) spans)
    {p q : Nat} (hpq : p ≤ q) :
    collapsed_pos_to_orig spans p ≤ collapsed_pos_to_orig spans q := by
  unfold collapsed_pos_to_orig
  by_cases hp0 : p = 0
  · rw [if_pos hp0]
    exact Nat.zero_le _
  · rw [if_neg hp0]
    have hq0 : ¬ q = 0 := by omega
    rw [if_neg hq0]
    by_cases hql : spans.length ≤ q
    · rw [if_pos hql]
      by_cases hpl : spans.length ≤ p
      · rw [if_pos hpl]
      · rw [if_neg hpl]
        push_neg at hpl
        have hne : spans ≠ [] := by
          intro hc
          rw [hc] at hpl
          simp at hpl
        have hlt : spans.length - 1 < spans.length := by omega
        rw [List.getD_eq_getElem _ _ hpl,
          getLastD_eq_getElem_pred (0, 0) hne hlt]
        have hlast := hshape _ (List.getElem_mem hlt)
        rcases Nat.eq_or_lt_of_le (show p ≤ spans.length - 1 by omega) with
          heq | hplt
        · have hEq : spans[p] = spans[spans.length - 1] := by
            congr 1
          rw [hEq]
          omega
        · have := List.pairwise_iff_getElem.mp hpw p (spans.length - 1) hpl hlt hplt
          omega
    · rw [if_neg hql]
      push_neg at hql
      have hpl : p < spans.length := by omega
      rw [if_neg (by omega : ¬ spans.length ≤ p)]
      rw [List.getD_eq_getElem _ _ hpl, List.getD_eq_getElem _ _ hql]
      rcases Nat.eq_or_lt_of_le hpq with rfl | hlt
      · exact Nat.le_refl _
      · have := List.pairwise_iff_getElem.mp hpw p q hpl hql hlt
        omega

theorem exact_match_valid {code old : Str} {s e : Nat}
    (h : exact_match code old = .ok (some (s, e))) :
    s ≤ e ∧ e ≤ code.length := by
  unfold exact_match at h
  cases hf : pyFind code old with
  | none =>
    simp [hf] at h
  | some first =>
    simp only [hf] at h
    cases hsec : pyFindFrom code old (first + 1) with
    | some _ =>
      simp [hsec] at h
    | none =>
      simp only [hsec, Except.ok.injEq, Option.some.injEq, Prod.mk.injEq] at h
      obtain ⟨rfl, rfl⟩ := h
      obtain ⟨_, hlen, hocc, _⟩ := pyFindFrom_eq_some hf
      have := add_length_le_of_occursAt hocc hlen
      exact ⟨by omega, by omega⟩

theorem line_trimmed_match_valid {code old : Str} {s e : Nat}
    (h : line_trimmed_match code old = .ok (some (s, e))) :
    s ≤ e ∧ e ≤ code.length := by
  simp only [line_trimmed_match] at h
  cases hf : pyFind (build_trimmed_map code).1
      (joinNl ((splitNl old).map rstrip)) with
  | none =>
    simp [hf] at h
  | some pos =>
    simp only [hf] at h
    cases hsec : (pyFindFrom (build_trimmed_map code).1
        (joinNl ((splitNl old).map rstrip)) (pos + 1)).isSome with
    | true =>
      simp [hsec] at h
    | false =>
      simp only [hsec, Bool.false_eq_true, if_false, Except.ok.injEq,
        Option.some.injEq, Prod.mk.injEq] at h
      obtain ⟨rfl, rfl⟩ := h
      exact ⟨map_trimmed_mono code (by omega), map_trimmed_le code _⟩

theorem indentLoop_valid (code old : Str) (oi : Nat) :
    ∀ (ds : List Nat) (acc res : List (Nat × Nat × Nat)),
      (∀ x ∈ acc, x.1 ≤ x.2.1 ∧ x.2.1 ≤ code.length) →
      indentLoop code old oi ds acc = .ok res →
      ∀ x ∈ res, x.1 ≤ x.2.1 ∧ x.2.1 ≤ code.length := by
  intro ds
  induction ds with
  | nil =>
    intro acc res hacc h
    simp only [indentLoop] at h
    injection h with h2
    subst h2
    exact hacc
  | cons t ts ih =>
    intro acc res hacc h
    simp only [indentLoop] at h
    by_cases ht : t = oi
    · rw [if_pos ht] at h
      exact ih acc res hacc h
    · rw [if_neg ht] at h
      cases hf : pyFind code (reindent old oi t) with
      | none =>
        simp only [hf] at h
        exact ih acc res hacc h
      | some pos =>
        simp only [hf] at h
        cases hsec : (pyFindFrom code (reindent old oi t) (pos + 1)).isSome with
        | true =>
          simp [hsec] at h
        | false =>
          simp only [hsec, Bool.false_eq_true, if_false] at h
          refine ih _ res ?_ h
          intro x hx
          rcases List.mem_append.mp hx with hx1 | hx2
          · exact hacc x hx1
          · rw [List.mem_singleton] at hx2
            subst hx2
            obtain ⟨_, hlen, hocc, _⟩ := pyFindFrom_eq_some hf
            have := add_length_le_of_occursAt hocc hlen
            refine ⟨?_, ?_⟩
            · show pos ≤ pos + (reindent old oi t).length
              omega
            · show pos + (reindent old oi t).length ≤ code.length
              omega

theorem indentation_flexible_match_valid {code old : Str} {s e : Nat}
    (h : indentation_flexible_match code old = .ok (some (s, e))) :
    s ≤ e ∧ e ≤ code.length := by
  unfold indentation_flexible_match at h
  cases hd : detect_indent old with
  | none =>
    simp [hd] at h
  | some oi =>
    simp only [hd] at h
    cases hloop : indentLoop code old oi (codeIndents code) [] with
    | error er =>
      simp [hloop] at h
    | ok res =>
      simp only [hloop] at h
      rcases hres : res with _ | ⟨m, _ | ⟨m2, rest⟩⟩
      · rw [hres] at h
        simp at h
      · rw [hres] at h
        simp only [Except.ok.injEq, Option.some.injEq, Prod.mk.injEq] at h
        obtain ⟨rfl, rfl⟩ := h
        exact indentLoop_valid code old oi (codeIndents code) [] res
          (by simp) hloop m (by rw [hres]; simp)
      · rw [hres] at h
        simp at h

theorem blank_line_flexible_match_valid {code old : Str} {s e : Nat}
    (h : blank_line_flexible_match code old = .ok (some (s, e))) :
    s ≤ e ∧ e ≤ code.length := by
  simp only [blank_line_flexible_match] at h
  cases hf : pyFind (strip_blank_lines_with_spans code).1
      (strip_blank_lines old) with
  | none =>
    simp [hf] at h
  | some pos =>
    simp only [hf] at h
    cases hsec : (pyFindFrom (strip_blank_lines_with_spans code).1
        (strip_blank_lines old) (pos + 1)).isSome with
    | true =>
      simp [hsec] at h
    | false =>
      simp only [hsec, Bool.false_eq_true, if_false, Except.ok.injEq,
        Option.some.injEq, Prod.mk.injEq] at h
      obtain ⟨rfl, rfl⟩ := h
      have hkmem : ∀ u ∈ keptInfo 0 (splitNl code), u.1 + u.2 ≤ code.length := by
        intro u hu
        have := (keptInfo_mem (splitNl code) 0 u hu).2.2
        rw [joinNl_splitNl] at this
        omega
      have hkpw := keptInfo_pairwise (splitNl code) 0
      have hshape := spansOf_shape (keptInfo 0 (splitNl code))
      have hub := spansOf_ub (keptInfo 0 (splitNl code)) code.length hkmem hkpw
      have hpw := spansOf_pairwise (keptInfo 0 (splitNl code)) hkpw
      constructor
      · exact collapsed_mono (spansOf (keptInfo 0 (splitNl code))) hshape hpw
          (by omega)
      · exact collapsed_le (spansOf (keptInfo 0 (splitNl code))) code.length
          hshape hub _

/-- C10: span validity.  For every buffer and non-empty `old_code`,
whenever `locate_edit` returns a span `(start, end)` — from any of the
four matchers, including the two that remap offsets from a normalized
view — it satisfies `start ≤ end ≤ len(code)`, so the orchestrator's
splice is a well-defined decomposition of the working buffer. -/
theorem locate_edit_span_valid (code old : Str) (s e : Nat) (_hne : old ≠ [])
    (h : locate_edit code old = .ok (some (s, e))) :
    s ≤ e ∧ e ≤ code.length := by
  unfold locate_edit at h
  cases h1 : exact_match code old with
  | error er =>
    rw [runCascade_cons_error h1] at h
    cases h
  | ok o1 =>
    cases o1 with
    | some r1 =>
      obtain ⟨s1, e1⟩ := r1
      rw [runCascade_cons_some h1] at h
      simp only [Except.ok.injEq, Option.some.injEq, Prod.mk.injEq] at h
      obtain ⟨rfl, rfl⟩ := h
      exact exact_match_valid h1
    | none =>
      rw [runCascade_cons_none h1] at h
      cases h2 : line_trimmed_match code old with
      | error er =>
        rw [runCascade_cons_error h2] at h
        cases h
      | ok o2 =>
        cases o2 with
        | some r2 =>
          obtain ⟨s2, e2⟩ := r2
          rw [runCascade_cons_some h2] at h
          simp only [Except.ok.injEq, Option.some.injEq, Prod.mk.injEq] at h
          obtain ⟨rfl, rfl⟩ := h
          exact line_trimmed_match_valid h2
        | none =>
          rw [runCascade_cons_none h2] at h
          cases h3 : indentation_flexible_match code old with
          | error er =>
            rw [runCascade_cons_error h3] at h
            cases h
          | ok o3 =>
            cases o3 with
            | some r3 =>
              obtain ⟨s3, e3⟩ := r3
              rw [runCascade_cons_some h3] at h
              simp only [Except.ok.injEq, Option.some.injEq, Prod.mk.injEq] at h
              obtain ⟨rfl, rfl⟩ := h
              exact indentation_flexible_match_valid h3
            | none =>
              rw [runCascade_cons_none h3] at h
              cases h4 : blank_line_flexible_match code old with
              | error er =>
                rw [runCascade_cons_error h4] at h
                cases h
              | ok o4 =>
                cases o4 with
                | some r4 =>
                  obtain ⟨s4, e4⟩ := r4
                  rw [runCascade_cons_some h4] at h
                  simp only [Except.ok.injEq, Option.some.injEq,
                    Prod.mk.injEq] at h
                  obtain ⟨rfl, rfl⟩ := h
                  exact blank_line_flexible_match_valid h4
                | none =>
                  rw [runCascade_cons_none h4] at h
                  simp [runCascade] at h

/-- Witness for C10 at a concrete lookup (exact matcher). -/
theorem locate_edit_span_valid_witness :
    1 ≤ 2 ∧ 2 ≤ ("abc".toList).length :=
  locate_edit_span_valid "abc".toList "b".toList 1 2 (by decide) (by rfl)

theorem spansOf_ne_nil : ∀ (kept : List (Nat × Nat)),
    (∀ e ∈ kept, 1 ≤ e.2) → kept ≠ [] → spansOf kept ≠ [] := by
  intro kept h1 h2
  cases kept with
  | nil => exact absurd rfl h2
  | cons e rest =>
    obtain ⟨s, L⟩ := e
    cases rest with
    | nil =>
      simp only [spansOf]
      have hL : 1 ≤ L := h1 (s, L) (by simp)
      intro hc
      rw [List.map_eq_nil_iff, List.range_eq_nil] at hc
      omega
    | cons e2 rest' =>
      simp only [spansOf]
      intro hc
      rw [List.append_eq_nil, List.append_eq_nil] at hc
      obtain ⟨⟨_, hsep⟩, _⟩ := hc
      cases hsep

theorem getLastD_append_right {l₁ l₂ : List (Nat × Nat)} (d : Nat × Nat)
    (h : l₂ ≠ []) : (l₁ ++ l₂).getLastD d = l₂.getLastD d := by
  rw [List.getLastD_eq_getLast?, List.getLastD_eq_getLast?, List.getLast?_append]
  rw [List.getLast?_eq_getLast l₂ h]
  rfl

theorem spansOf_last : ∀ (kept : List (Nat × Nat)) (s L : Nat),
    (∀ e ∈ kept, 1 ≤ e.2) → kept.getLast? = some (s, L) →
    (spansOf kept).getLastD (0, 0) = (s + L - 1, s + L) := by
  intro kept
  induction kept with
  | nil =>
    intro s L _ h
    cases h
  | cons e rest ih =>
    intro s L h1 hlast
    obtain ⟨s0, L0⟩ := e
    cases rest with
    | nil =>
      rw [List.getLast?_singleton] at hlast
      have hsl : s0 = s ∧ L0 = L := by
        injection hlast with hv
        exact ⟨congrArg Prod.fst hv, congrArg Prod.snd hv⟩
      obtain ⟨rfl, rfl⟩ := hsl
      have hL : 1 ≤ L0 := h1 (s0, L0) (by simp)
      simp only [spansOf]
      have hr : List.range L0 = List.range (L0 - 1) ++ [L0 - 1] := by
        conv_lhs => rw [show L0 = (L0 - 1) + 1 by omega]
        rw [List.range_succ]
      rw [hr, List.map_append]
      simp only [List.map_cons, List.map_nil]
      rw [List.getLastD_concat]
      have h1e : s0 + (L0 - 1) = s0 + L0 - 1 := by omega
      rw [h1e]
      have h3e : s0 + L0 - 1 + 1 = s0 + L0 := by omega
      rw [h3e]
    | cons e2 rest' =>
      rw [List.getLast?_cons_cons] at hlast
      have ih' := ih s L (fun u hu => h1 u (List.mem_cons_of_mem _ hu)) hlast
      have hne : spansOf (e2 :: rest') ≠ [] :=
        spansOf_ne_nil (e2 :: rest')
          (fun u hu => h1 u (List.mem_cons_of_mem _ hu)) (by simp)
      simp only [spansOf]
      rw [List.append_assoc, getLastD_append_right _ (by
        intro hc
        rw [List.append_eq_nil] at hc
        exact hne hc.2)]
      rw [getLastD_append_right _ hne]
      exact ih'

/-- C6 amended: the remapper's table has one `(start, end)` entry per
character of the collapsed text, each entry spanning exactly one source
character (`end = start + 1`, with `end` within the buffer); for every
collapsed offset `p` with `1 ≤ p < len(table)` the remap returns entry
`p`'s `original_start`; but a collapsed offset of 0 remaps to original
offset 0 (the start of the buffer), not to entry 0's `original_start`,
which differs when the buffer begins with blank lines. -/
theorem blank_remap_table (text : Str) :
    ((strip_blank_lines_with_spans text).2).length
        = ((strip_blank_lines_with_spans text).1).length
    ∧ (∀ i (hi : i < ((strip_blank_lines_with_spans text).2).length),
        ((strip_blank_lines_with_spans text).2)[i].2
            = ((strip_blank_lines_with_spans text).2)[i].1 + 1
          ∧ ((strip_blank_lines_with_spans text).2)[i].1 + 1 ≤ text.length)
    ∧ (∀ p (_hp : p < ((strip_blank_lines_with_spans text).2).length), 0 < p →
        collapsed_pos_to_orig ((strip_blank_lines_with_spans text).2) p
          = ((strip_blank_lines_with_spans text).2)[p].1)
    ∧ collapsed_pos_to_orig ((strip_blank_lines_with_spans text).2) 0 = 0 := by
  have hkb : ∀ u ∈ keptInfo 0 (splitNl text), u.1 + u.2 ≤ text.length := by
    intro u hu
    have := (keptInfo_mem (splitNl text) 0 u hu).2.2
    rw [joinNl_splitNl] at this
    omega
  refine ⟨?_, ?_, ?_, ?_⟩
  · show (spansOf (keptInfo 0 (splitNl text))).length = _
    refine spansOf_length _ _ ?_
    intro e he
    show ((text.drop e.1).take (e.1 + e.2 - e.1)).length = e.2
    rw [List.length_take, List.length_drop]
    have := hkb e he
    have h2 : e.1 + e.2 - e.1 = e.2 := by omega
    rw [h2]
    exact Nat.min_eq_left (by omega)
  · intro i hi
    have hmem := List.getElem_mem hi
    have hsh := spansOf_shape (keptInfo 0 (splitNl text)) _ hmem
    have hub := spansOf_ub (keptInfo 0 (splitNl text)) text.length hkb
      (keptInfo_pairwise _ 0) _ hmem
    exact ⟨hsh, by omega⟩
  · intro p hp hp0
    unfold collapsed_pos_to_orig
    rw [if_neg (by omega), if_neg (by omega)]
    rw [List.getD_eq_getElem _ (0, 0) hp]
  · rfl

/-- Witness for the amended C6 at the buffer `"\nfoo"` (leading blank
line): in-range offsets index the table directly, but offset 0 maps to 0. -/
theorem blank_remap_table_witness :
    collapsed_pos_to_orig (strip_blank_lines_with_spans "\nfoo".toList).2 1
      = ((strip_blank_lines_with_spans "\nfoo".toList).2.get ⟨1, by decide⟩).1
    ∧ collapsed_pos_to_orig (strip_blank_lines_with_spans "\nfoo".toList).2 0
      = 0 :=
  ⟨(blank_remap_table "\nfoo".toList).2.2.1 1 (by decide) (by decide),
   (blank_remap_table "\nfoo".toList).2.2.2⟩

/-- C7 amended: remapping a collapsed offset at or past the end of the
table yields the final span's end — the offset one past the last kept
(non-blank-line) character of the buffer.  This is at most `len(buffer)`
but falls short of it exactly when the buffer ends with blank-line content
(for example a trailing newline), as the counterexample shows. -/
theorem blank_remap_past_end (text : Str) (s L p : Nat)
    (hlast : (keptInfo 0 (splitNl text)).getLast? = some (s, L))
    (hp : ((strip_blank_lines_with_spans text).2).length ≤ p) :
    collapsed_pos_to_orig ((strip_blank_lines_with_spans text).2) p = s + L
    ∧ s + L ≤ text.length := by
  have hmeml : (s, L) ∈ keptInfo 0 (splitNl text) :=
    List.mem_of_mem_getLast? hlast
  have hL1 : ∀ e ∈ keptInfo 0 (splitNl text), 1 ≤ e.2 := by
    intro e he
    exact (keptInfo_mem (splitNl text) 0 e he).2.1
  have hkne : keptInfo 0 (splitNl text) ≠ [] := by
    intro hc
    rw [hc] at hmeml
    cases hmeml
  have hspne : spansOf (keptInfo 0 (splitNl text)) ≠ [] :=
    spansOf_ne_nil _ hL1 hkne
  have hlen1 : 1 ≤ ((strip_blank_lines_with_spans text).2).length := by
    show 1 ≤ (spansOf (keptInfo 0 (splitNl text))).length
    have := List.length_pos.mpr hspne
    omega
  have hlastd := spansOf_last (keptInfo 0 (splitNl text)) s L hL1 hlast
  constructor
  · unfold collapsed_pos_to_orig
    rw [if_neg (by omega), if_pos (by omega)]
    show ((spansOf (keptInfo 0 (splitNl text))).getLastD (0, 0)).2 = s + L
    rw [hlastd]
  · have := (keptInfo_mem (splitNl text) 0 (s, L) hmeml).2.2
    rw [joinNl_splitNl] at this
    omega

/-- Witness for the amended C7 at `"foo\n\n"`: past-end offsets remap to 3,
the end of `foo`, which is strictly less than the buffer length 5. -/
theorem blank_remap_past_end_witness :
    collapsed_pos_to_orig (strip_blank_lines_with_spans "foo\n\n".toList).2 7
        = 0 + 3
    ∧ 0 + 3 ≤ ("foo\n\n".toList).length :=
  blank_remap_past_end "foo\n\n".toList 0 3 7 (by rfl) (by decide)

/-- C6 counterexample: for a buffer beginning with a blank line, a
collapsed-text offset of 0 is remapped to original offset 0 (start of the
buffer), not to the table's first entry (the first kept character). -/
theorem blank_remap_counterexample :
    collapsed_pos_to_orig (strip_blank_lines_with_spans "\nfoo".toList).2 0 = 0
    ∧ (((strip_blank_lines_with_spans "\nfoo".toList).2.getD 0 (0, 0)).1 = 1)
    ∧ collapsed_pos_to_orig (strip_blank_lines_with_spans "\nfoo".toList).2 0
        ≠ (((strip_blank_lines_with_spans "\nfoo".toList).2.getD 0 (0, 0)).1) := by
  refine ⟨by rfl, by rfl, by decide⟩

/-- C7 counterexample: for a buffer ending with blank lines, a past-the-end
collapsed offset is remapped to the end of the last kept character (3), not
to the end of the buffer (5). -/
theorem blank_remap_past_end_counterexample :
    collapsed_pos_to_orig (strip_blank_lines_with_spans "foo\n\n".toList).2 3 = 3
    ∧ ("foo\n\n".toList).length = 5
    ∧ collapsed_pos_to_orig (strip_blank_lines_with_spans "foo\n\n".toList).2 3
        ≠ ("foo\n\n".toList).length := by
  refine ⟨by rfl, by rfl, by decide⟩

end Editor
